import Mathlib

/-!
Verification of the knowthis RAG pipeline (Go) against its specification.

Go strings are modeled as `List Char` (`Str`). For the ASCII strings occurring
in this development, Go's byte-index operations (`strings.Index`, slicing at
match boundaries) agree with character-index operations, because the searched
patterns are ASCII and an ASCII byte cannot occur inside a multi-byte UTF-8
sequence; byte lengths are recovered exactly by `goLen` (sum of UTF-8 sizes).
Loops that rewrite a string until a condition fails are modeled by
fuel-indexed structural recursion with fuel = length of the input; a fuel-
congruence lemma shows any sufficient fuel computes the same result, and each
iteration strictly shrinks the string, so this is the exact loop semantics.
`float64` constants and arithmetic are modeled over `ℚ`; every claim settled
here is structural (no claim depends on floating-point rounding at a
threshold boundary).
-/

/-- Go strings, modeled as lists of characters. -/
abbrev Str := List Char

/-- The Go `unicode.IsSpace` predicate (the White_Space property). -/
def goIsSpace (c : Char) : Bool :=
  c.toNat = 0x20 || (0x9 ≤ c.toNat && c.toNat ≤ 0xD) ||
  c.toNat = 0x85 || c.toNat = 0xA0 || c.toNat = 0x1680 ||
  (0x2000 ≤ c.toNat && c.toNat ≤ 0x200A) || c.toNat = 0x2028 ||
  c.toNat = 0x2029 || c.toNat = 0x202F || c.toNat = 0x205F || c.toNat = 0x3000

/-- Go `strings.TrimSpace`: drop leading and trailing white space. -/
def goTrimSpace (s : Str) : Str :=
  ((s.dropWhile goIsSpace).reverse.dropWhile goIsSpace).reverse

/-- Go `len(s)` on a string: the UTF-8 byte length. -/
def goLen (s : Str) : Nat := (s.map Char.utf8Size).sum

/-- Go `strings.ToLower`, restricted to its ASCII action (all pattern
strings compared in this code base are ASCII-lowercase). -/
def goToLower (s : Str) : Str := s.map Char.toLower

/-- Go `strings.Fields`, fuel-indexed: split into maximal runs of
non-space characters. Fuel `s.length` always suffices (see
`goFieldsF_congr`); at fuel 0 the string is empty and the result `[]`
agrees with `strings.Fields("")`. -/
def goFieldsF : Nat → Str → List Str
  | 0, _ => []
  | _ + 1, [] => []
  | f + 1, c :: t =>
    if goIsSpace c then goFieldsF f t
    else (c :: t.takeWhile (fun d => !goIsSpace d)) ::
      goFieldsF f (t.dropWhile (fun d => !goIsSpace d))

/-- Go `strings.Fields`. -/
def goFields (s : Str) : List Str := goFieldsF s.length s

/-- Go `strings.Join(parts, sep)`. -/
def goJoin (sep : Str) : List Str → Str
  | [] => []
  | [w] => w
  | w :: ws => w ++ sep ++ goJoin sep ws

theorem goFieldsF_congr :
    ∀ (f₁ f₂ : Nat) (s : Str), s.length ≤ f₁ → s.length ≤ f₂ →
      goFieldsF f₁ s = goFieldsF f₂ s := by
  intro f₁
  induction f₁ with
  | zero =>
    intro f₂ s h₁ _
    have hs : s = [] := List.eq_nil_of_length_eq_zero (Nat.le_zero.mp h₁)
    subst hs
    cases f₂ <;> rfl
  | succ f ih =>
    intro f₂ s h₁ h₂
    cases s with
    | nil => cases f₂ <;> rfl
    | cons c t =>
      cases f₂ with
      | zero => exact absurd h₂ (by simp)
      | succ g =>
        have ht₁ : t.length ≤ f := Nat.le_of_succ_le_succ (by simpa using h₁)
        have ht₂ : t.length ≤ g := Nat.le_of_succ_le_succ (by simpa using h₂)
        by_cases hc : goIsSpace c
        · simp only [goFieldsF, hc, if_true]
          exact ih g t ht₁ ht₂
        · simp only [goFieldsF, hc, Bool.false_eq_true, if_false]
          have hd : (t.dropWhile (fun d => !goIsSpace d)).length ≤ t.length :=
            (List.dropWhile_sublist _).length_le
          rw [ih g _ (le_trans hd ht₁) (le_trans hd ht₂)]

theorem goFields_nil : goFields [] = [] := rfl

theorem goFields_cons_space {c : Char} (t : Str) (hc : goIsSpace c = true) :
    goFields (c :: t) = goFields t := by
  show goFieldsF (t.length + 1) (c :: t) = goFields t
  simp only [goFieldsF, hc, if_true]
  rfl

theorem goFields_cons_word {c : Char} (t : Str) (hc : goIsSpace c = false) :
    goFields (c :: t) =
      (c :: t.takeWhile (fun d => !goIsSpace d)) ::
        goFields (t.dropWhile (fun d => !goIsSpace d)) := by
  show goFieldsF (t.length + 1) (c :: t) = _
  simp only [goFieldsF, hc, Bool.false_eq_true, if_false]
  exact congrArg (List.cons _)
    (goFieldsF_congr _ _ _ ((List.dropWhile_sublist _).length_le) le_rfl)

/-- Every field returned by `goFields` is nonempty and space-free. -/
theorem goFields_sound :
    ∀ (n : Nat) (s : Str), s.length ≤ n →
      ∀ w ∈ goFields s, w ≠ [] ∧ ∀ c ∈ w, goIsSpace c = false := by
  intro n
  induction n with
  | zero =>
    intro s h w hw
    have hs : s = [] := List.eq_nil_of_length_eq_zero (Nat.le_zero.mp h)
    subst hs
    simp [goFields_nil] at hw
  | succ n ih =>
    intro s h w hw
    cases s with
    | nil => simp [goFields_nil] at hw
    | cons c t =>
      have ht : t.length ≤ n := Nat.le_of_succ_le_succ (by simpa using h)
      by_cases hc : goIsSpace c
      · rw [goFields_cons_space t hc] at hw
        exact ih t ht w hw
      · rw [goFields_cons_word t (by simpa using hc)] at hw
        rcases List.mem_cons.mp hw with hw | hw
        · subst hw
          refine ⟨by simp, ?_⟩
          intro d hd
          rcases List.mem_cons.mp hd with hd | hd
          · subst hd; simpa using hc
          · have := List.mem_takeWhile_imp hd
            simpa using this
        · exact ih _ (le_trans ((List.dropWhile_sublist _).length_le) ht) w hw

theorem takeWhile_append_of_all {p : Char → Bool} {l₁ : Str} (l₂ : Str)
    (h : ∀ x ∈ l₁, p x = true) :
    (l₁ ++ l₂).takeWhile p = l₁ ++ l₂.takeWhile p := by
  induction l₁ with
  | nil => simp
  | cons a l ih =>
    have ha : p a = true := h a (by simp)
    simp only [List.cons_append, List.takeWhile_cons, ha, if_true]
    exact congrArg _ (ih fun x hx => h x (by simp [hx]))

theorem dropWhile_append_of_all {p : Char → Bool} {l₁ : Str} (l₂ : Str)
    (h : ∀ x ∈ l₁, p x = true) :
    (l₁ ++ l₂).dropWhile p = l₂.dropWhile p := by
  induction l₁ with
  | nil => simp
  | cons a l ih =>
    have ha : p a = true := h a (by simp)
    simp only [List.cons_append, List.dropWhile_cons, ha, if_true]
    exact ih fun x hx => h x (by simp [hx])

/-- Splitting a space-free nonempty word off the front of a string whose
remainder is empty or starts with a space. -/
theorem goFields_word_append (w s : Str) (hw : w ≠ [])
    (hall : ∀ c ∈ w, goIsSpace c = false)
    (hs : s = [] ∨ ∃ c t, s = c :: t ∧ goIsSpace c = true) :
    goFields (w ++ s) = w :: goFields s := by
  cases w with
  | nil => exact absurd rfl hw
  | cons c wt =>
    have hc : goIsSpace c = false := hall c (by simp)
    have hwt : ∀ x ∈ wt, (fun d => !goIsSpace d) x = true := by
      intro x hx
      simp [hall x (by simp [hx])]
    have hleft : s.takeWhile (fun d => !goIsSpace d) = [] := by
      rcases hs with hs | ⟨d, t, hs, hd⟩
      · simp [hs]
      · simp [hs, List.takeWhile_cons, hd]
    have hrest : s.dropWhile (fun d => !goIsSpace d) = s := by
      rcases hs with hs | ⟨d, t, hs, hd⟩
      · simp [hs]
      · simp [hs, List.dropWhile_cons, hd]
    rw [List.cons_append, goFields_cons_word _ hc,
      takeWhile_append_of_all s hwt, dropWhile_append_of_all s hwt,
      hleft, hrest, List.append_nil]

/-- Character-level inverse: `goFields` recovers the words joined by a
single space, provided each word is nonempty and space-free. -/
theorem goFields_goJoin (ws : List Str)
    (h : ∀ w ∈ ws, w ≠ [] ∧ ∀ c ∈ w, goIsSpace c = false) :
    goFields (goJoin [' '] ws) = ws := by
  induction ws with
  | nil => rfl
  | cons w rest ih =>
    cases rest with
    | nil =>
      have hw := h w (by simp)
      have := goFields_word_append w [] hw.1 hw.2 (Or.inl rfl)
      simp only [List.append_nil] at this
      simpa [goJoin, goFields_nil] using this
    | cons x rest' =>
      have hw := h w (by simp)
      have hjoin : goJoin [' '] (w :: x :: rest') =
          w ++ (' ' :: goJoin [' '] (x :: rest')) := by
        simp [goJoin]
      rw [hjoin, goFields_word_append w _ hw.1 hw.2
        (Or.inr ⟨' ', _, rfl, by decide⟩)]
      rw [goFields_cons_space _ (by decide)]
      exact congrArg _ (ih fun v hv => h v (by simp [hv]))

/-! ### Chunker (slack `EmbeddingProcessor.chunkContent`, part_002 lines 164-185) -/

/-- The chunk size bound from `chunkContent`: 7000 words per chunk. -/
def maxWordsPerChunk : Nat := 7000

/-- The chunking loop `for i := 0; i < len(words); i += maxWordsPerChunk`,
fuel-indexed (fuel `ws.length` suffices: each step drops 7000 ≥ 1 words). -/
def wordChunksF : Nat → List Str → List (List Str)
  | 0, _ => []
  | f + 1, ws =>
    if ws = [] then []
    else ws.take maxWordsPerChunk :: wordChunksF f (ws.drop maxWordsPerChunk)

/-- The word-slices `words[i:end]` produced by the chunking loop. -/
def wordChunks (ws : List Str) : List (List Str) := wordChunksF ws.length ws

theorem wordChunksF_congr :
    ∀ (f₁ f₂ : Nat) (ws : List Str), ws.length ≤ f₁ → ws.length ≤ f₂ →
      wordChunksF f₁ ws = wordChunksF f₂ ws := by
  intro f₁
  induction f₁ with
  | zero =>
    intro f₂ ws h₁ _
    have hs : ws = [] := List.eq_nil_of_length_eq_zero (Nat.le_zero.mp h₁)
    subst hs
    cases f₂ <;> rfl
  | succ f ih =>
    intro f₂ ws h₁ h₂
    by_cases hws : ws = []
    · subst hws; cases f₂ <;> rfl
    · cases f₂ with
      | zero =>
        exact absurd (List.eq_nil_of_length_eq_zero (Nat.le_zero.mp h₂)) hws
      | succ g =>
        simp only [wordChunksF, hws, if_false]
        have hlen : 0 < ws.length := List.length_pos.mpr hws
        have hm : 0 < maxWordsPerChunk := by decide
        have hd : (ws.drop maxWordsPerChunk).length ≤ f := by
          rw [List.length_drop]
          omega
        have hd₂ : (ws.drop maxWordsPerChunk).length ≤ g := by
          rw [List.length_drop]
          omega
        rw [ih g _ hd hd₂]

theorem wordChunks_nil : wordChunks [] = [] := rfl

theorem wordChunks_cons (ws : List Str) (h : ws ≠ []) :
    wordChunks ws =
      ws.take maxWordsPerChunk :: wordChunks (ws.drop maxWordsPerChunk) := by
  have hlen : 0 < ws.length := List.length_pos.mpr h
  cases hw : ws.length with
  | zero => omega
  | succ n =>
    show wordChunksF ws.length ws = _
    rw [hw]
    simp only [wordChunksF, h, if_false]
    have hm : 0 < maxWordsPerChunk := by decide
    rw [wordChunksF_congr _ _ _ (by rw [List.length_drop]; omega) le_rfl]
    rfl

/-- Each slice is at most 7000 words and consists of words of the input. -/
theorem wordChunks_mem :
    ∀ (n : Nat) (ws : List Str), ws.length ≤ n →
      ∀ piece ∈ wordChunks ws,
        piece.length ≤ maxWordsPerChunk ∧ ∀ w ∈ piece, w ∈ ws := by
  intro n
  induction n with
  | zero =>
    intro ws h piece hp
    have hs : ws = [] := List.eq_nil_of_length_eq_zero (Nat.le_zero.mp h)
    subst hs
    simp [wordChunks_nil] at hp
  | succ n ih =>
    intro ws h piece hp
    by_cases hws : ws = []
    · subst hws; simp [wordChunks_nil] at hp
    · rw [wordChunks_cons ws hws] at hp
      rcases List.mem_cons.mp hp with hp | hp
      · subst hp
        exact ⟨by simp [List.length_take_le], fun w hw => List.mem_of_mem_take hw⟩
      · have hlen : 0 < ws.length := List.length_pos.mpr hws
        have hm : 0 < maxWordsPerChunk := by decide
        have hd : (ws.drop maxWordsPerChunk).length ≤ n := by
          rw [List.length_drop]; omega
        obtain ⟨h1, h2⟩ := ih _ hd piece hp
        exact ⟨h1, fun w hw => List.mem_of_mem_drop (h2 w hw)⟩

theorem wordChunks_flatten :
    ∀ (n : Nat) (ws : List Str), ws.length ≤ n →
      (wordChunks ws).flatten = ws := by
  intro n
  induction n with
  | zero =>
    intro ws h
    have hs : ws = [] := List.eq_nil_of_length_eq_zero (Nat.le_zero.mp h)
    subst hs
    rfl
  | succ n ih =>
    intro ws h
    by_cases hws : ws = []
    · subst hws; rfl
    · rw [wordChunks_cons ws hws]
      have hlen : 0 < ws.length := List.length_pos.mpr hws
      have hm : 0 < maxWordsPerChunk := by decide
      have hd : (ws.drop maxWordsPerChunk).length ≤ n := by
        rw [List.length_drop]; omega
      simp only [List.flatten_cons, ih _ hd, List.take_append_drop]

/-- Go `chunkContent` (part_002): split into chunks of at most 7000
whitespace-delimited words; a text of at most 7000 words is returned as the
single chunk, unmodified. -/
def chunkContent (content : Str) : List Str :=
  if (goFields content).length ≤ maxWordsPerChunk then [content]
  else (wordChunks (goFields content)).map (goJoin [' '])

/-- Words of a word-slice are words of the source text, hence nonempty and
space-free; joining them by single spaces is inverted by `goFields`. -/
theorem goFields_goJoin_piece (content : Str) (piece : List Str)
    (hp : piece ∈ wordChunks (goFields content)) :
    goFields (goJoin [' '] piece) = piece := by
  obtain ⟨_, hsub⟩ := wordChunks_mem (goFields content).length _ le_rfl piece hp
  exact goFields_goJoin piece fun w hw =>
    goFields_sound content.length content le_rfl w (hsub w hw)

/-- Claim C9: every chunk produced by `chunkContent` contains at most 7000
whitespace-delimited words; an input of at most 7000 words is returned as
the one-element list holding the unmodified input; and the function is
deterministic (equal inputs give equal chunk lists). -/
theorem chunkContent_spec (content : Str) :
    (∀ ch ∈ chunkContent content, (goFields ch).length ≤ maxWordsPerChunk)
    ∧ ((goFields content).length ≤ maxWordsPerChunk →
        chunkContent content = [content])
    ∧ (∀ other : Str, content = other →
        chunkContent content = chunkContent other) := by
  refine ⟨?_, fun h => by simp [chunkContent, h], fun other h => by rw [h]⟩
  intro ch hch
  by_cases h : (goFields content).length ≤ maxWordsPerChunk
  · simp only [chunkContent, h, if_true, List.mem_singleton] at hch
    subst hch
    exact h
  · simp only [chunkContent, h, if_false, List.mem_map] at hch
    obtain ⟨piece, hp, rfl⟩ := hch
    rw [goFields_goJoin_piece content piece hp]
    exact (wordChunks_mem (goFields content).length _ le_rfl piece hp).1

/-- Witness for `chunkContent_spec` at a concrete input. -/
theorem chunkContent_spec_witness :
    (goFields (("two words").toList)).length ≤ maxWordsPerChunk ∧
    chunkContent (("two words").toList) = [("two words").toList] :=
  ⟨by decide, (chunkContent_spec (("two words").toList)).2.1 (by decide)⟩

/-- Claim C10: chunking is word-exact: concatenating the word sequences of
the produced chunks, in order, gives exactly the word sequence of the
input; no word is lost, duplicated or reordered. -/
theorem chunkContent_words_exact (content : Str) :
    ((chunkContent content).map goFields).flatten = goFields content := by
  by_cases h : (goFields content).length ≤ maxWordsPerChunk
  · simp [chunkContent, h]
  · simp only [chunkContent, h, if_false, List.map_map]
    have hmap : (wordChunks (goFields content)).map (goFields ∘ goJoin [' ']) =
        (wordChunks (goFields content)).map id := by
      refine List.map_congr_left ?_
      intro piece hp
      exact goFields_goJoin_piece content piece hp
    rw [hmap, List.map_id]
    exact wordChunks_flatten (goFields content).length _ le_rfl

/-! ### String search: Go `strings.Index` and `strings.Contains` -/

/-- Whether `pat` matches at the start of `s`. -/
def matchesAt : Str → Str → Bool
  | [], _ => true
  | _ :: _, [] => false
  | p :: ps, c :: cs => p == c && matchesAt ps cs

/-- Go `strings.Index(s, pat)`: index of the first occurrence of `pat` in
`s`, or `none` where Go returns `-1`. `strings.Contains(s, pat)` is
`(firstIdx pat s).isSome`. -/
def firstIdx (pat : Str) : Str → Option Nat
  | [] => if matchesAt pat [] then some 0 else none
  | c :: t =>
    if matchesAt pat (c :: t) then some 0 else (firstIdx pat t).map (· + 1)

theorem matchesAt_iff (pat : Str) :
    ∀ s : Str, matchesAt pat s = true ↔ ∃ r, s = pat ++ r := by
  induction pat with
  | nil => intro s; simp [matchesAt]
  | cons p ps ih =>
    intro s
    cases s with
    | nil =>
      simp only [matchesAt]
      constructor
      · intro h; cases h
      · rintro ⟨r, hr⟩; cases hr
    | cons c cs =>
      simp only [matchesAt, Bool.and_eq_true, beq_iff_eq, ih cs]
      constructor
      · rintro ⟨rfl, r, rfl⟩; exact ⟨r, rfl⟩
      · rintro ⟨r, hr⟩
        rw [List.cons_append] at hr
        injection hr with h1 h2
        exact ⟨h1.symm, r, h2⟩

theorem firstIdx_some_decomp {pat : Str} :
    ∀ {s : Str} {i : Nat}, firstIdx pat s = some i →
      ∃ a b, s = a ++ pat ++ b ∧ a.length = i := by
  intro s
  induction s with
  | nil =>
    intro i h
    simp only [firstIdx] at h
    by_cases hm : matchesAt pat [] = true
    · obtain ⟨r, hr⟩ := (matchesAt_iff pat []).mp hm
      rw [if_pos hm] at h
      injection h with h
      refine ⟨[], [], ?_, by simp [← h]⟩
      have : pat = [] := by
        cases pat with
        | nil => rfl
        | cons p ps => cases hr
      simp [this]
    · rw [if_neg hm] at h
      cases h
  | cons c t ih =>
    intro i h
    simp only [firstIdx] at h
    by_cases hm : matchesAt pat (c :: t) = true
    · rw [if_pos hm] at h
      injection h with h
      obtain ⟨r, hr⟩ := (matchesAt_iff pat _).mp hm
      exact ⟨[], r, by simpa using hr, by simp [← h]⟩
    · rw [if_neg hm] at h
      rcases Option.map_eq_some'.mp h with ⟨j, hj, rfl⟩
      obtain ⟨a, b, hab, hlen⟩ := ih hj
      exact ⟨c :: a, b, by simp [hab], by simp [hlen]⟩

theorem firstIdx_of_matchesAt {pat s : Str} (hm : matchesAt pat s = true) :
    firstIdx pat s = some 0 := by
  cases s with
  | nil => simp [firstIdx, hm]
  | cons c t => simp [firstIdx, hm]

theorem firstIdx_cons_of_not {pat : Str} {c : Char} {t : Str}
    (hm : matchesAt pat (c :: t) = false) :
    firstIdx pat (c :: t) = (firstIdx pat t).map (· + 1) := by
  simp [firstIdx, hm]

theorem firstIdx_of_decomp (pat : Str) :
    ∀ (a b : Str), ∃ i, firstIdx pat (a ++ pat ++ b) = some i ∧ i ≤ a.length := by
  intro a
  induction a with
  | nil =>
    intro b
    refine ⟨0, ?_, Nat.le_refl _⟩
    have hm : matchesAt pat ([] ++ pat ++ b) = true := by
      simpa using (matchesAt_iff pat (pat ++ b)).mpr ⟨b, rfl⟩
    exact firstIdx_of_matchesAt hm
  | cons c a' ih =>
    intro b
    rcases ih b with ⟨j, hj, hle⟩
    have hshape : (c :: a') ++ pat ++ b = c :: (a' ++ pat ++ b) := by
      simp only [List.cons_append]
    rw [hshape]
    cases hm : matchesAt pat (c :: (a' ++ pat ++ b)) with
    | true => exact ⟨0, firstIdx_of_matchesAt hm, Nat.zero_le _⟩
    | false =>
      refine ⟨j + 1, ?_, by simpa using Nat.succ_le_succ hle⟩
      rw [firstIdx_cons_of_not hm, hj]
      rfl

theorem firstIdx_isSome_of_decomp {pat s a b : Str} (h : s = a ++ pat ++ b) :
    (firstIdx pat s).isSome = true := by
  subst h
  rcases firstIdx_of_decomp pat a b with ⟨i, hi, _⟩
  rw [hi]
  rfl

theorem firstIdx_bound {pat s : Str} {i : Nat} (h : firstIdx pat s = some i) :
    i + pat.length ≤ s.length := by
  obtain ⟨a, b, rfl, rfl⟩ := firstIdx_some_decomp h
  simp [Nat.le_add_right, Nat.add_assoc, Nat.add_le_add_iff_left]

theorem firstIdx_singleton_isSome {a : Char} {s : Str} (h : a ∈ s) :
    (firstIdx [a] s).isSome = true := by
  obtain ⟨x, y, hxy⟩ := List.append_of_mem h
  exact @firstIdx_isSome_of_decomp [a] s x y (by simpa using hxy)

/-! ### The strip loops of `SlackHandler.cleanMessageText` (part_000 lines
350-372, part_009 lines 490-512) -/

/-- One strip loop of `cleanMessageText`: repeatedly find the first
occurrence of the two-character pattern `<c` (`c` is `@` for user mentions,
`#` for channel references); if a `>` occurs at or after it, remove
everything from the `<` through that `>` and loop, otherwise stop.
Fuel-indexed: each iteration removes at least one character, so fuel
`s.length` suffices (`stripTokF_congr`); at fuel 0 the string is empty and
is returned unchanged, as the loop would. -/
def stripTokF (c : Char) : Nat → Str → Str
  | 0, s => s
  | f + 1, s =>
    match firstIdx ['<', c] s with
    | none => s
    | some start =>
      match firstIdx ['>'] (s.drop start) with
      | none => s
      | some e => stripTokF c f (s.take start ++ s.drop (start + e + 1))

/-- The strip loop, with its always-sufficient fuel. -/
def stripTok (c : Char) (s : Str) : Str := stripTokF c s.length s

theorem stripTokF_succ_none {c : Char} {f : Nat} {s : Str}
    (h : firstIdx ['<', c] s = none) : stripTokF c (f + 1) s = s := by
  simp [stripTokF, h]

theorem stripTokF_succ_noClose {c : Char} {f start : Nat} {s : Str}
    (h : firstIdx ['<', c] s = some start)
    (h2 : firstIdx ['>'] (s.drop start) = none) :
    stripTokF c (f + 1) s = s := by
  simp [stripTokF, h, h2]

theorem stripTokF_succ_step {c : Char} {f start e : Nat} {s : Str}
    (h : firstIdx ['<', c] s = some start)
    (h2 : firstIdx ['>'] (s.drop start) = some e) :
    stripTokF c (f + 1) s =
      stripTokF c f (s.take start ++ s.drop (start + e + 1)) := by
  simp [stripTokF, h, h2]

/-- The removed segment is nonempty and lies inside the string, so each
iteration strictly shrinks it. -/
theorem strip_shrink {c : Char} {start e : Nat} {s : Str}
    (h : firstIdx ['<', c] s = some start)
    (h2 : firstIdx ['>'] (s.drop start) = some e) :
    (s.take start ++ s.drop (start + e + 1)).length ≤ s.length - 1 := by
  have hb3 : start + 2 ≤ s.length := firstIdx_bound h
  have hb4 : e + 1 ≤ s.length - start := by
    have := firstIdx_bound h2
    simpa [List.length_drop] using this
  rw [List.length_append, List.length_take, List.length_drop]
  omega

theorem stripTokF_congr (c : Char) :
    ∀ (f₁ f₂ : Nat) (s : Str), s.length ≤ f₁ → s.length ≤ f₂ →
      stripTokF c f₁ s = stripTokF c f₂ s := by
  intro f₁
  induction f₁ with
  | zero =>
    intro f₂ s h₁ _
    have hs : s = [] := List.eq_nil_of_length_eq_zero (Nat.le_zero.mp h₁)
    subst hs
    cases f₂ with
    | zero => rfl
    | succ g => rfl
  | succ f ih =>
    intro f₂ s h₁ h₂
    cases f₂ with
    | zero =>
      have hs : s = [] := List.eq_nil_of_length_eq_zero (Nat.le_zero.mp h₂)
      subst hs
      rfl
    | succ g =>
      cases h3 : firstIdx ['<', c] s with
      | none => rw [stripTokF_succ_none h3, stripTokF_succ_none h3]
      | some start =>
        cases h4 : firstIdx ['>'] (s.drop start) with
        | none =>
          rw [stripTokF_succ_noClose h3 h4, stripTokF_succ_noClose h3 h4]
        | some e =>
          rw [stripTokF_succ_step h3 h4, stripTokF_succ_step h3 h4]
          have hlen := strip_shrink h3 h4
          exact ih g (s.take start ++ s.drop (start + e + 1))
            (by omega) (by omega)

theorem stripTok_of_none {c : Char} {s : Str}
    (h : firstIdx ['<', c] s = none) : stripTok c s = s := by
  show stripTokF c s.length s = s
  cases hl : s.length with
  | zero => rfl
  | succ n => exact stripTokF_succ_none h

theorem stripTok_of_noClose {c : Char} {s : Str} {start : Nat}
    (h : firstIdx ['<', c] s = some start)
    (h2 : firstIdx ['>'] (s.drop start) = none) : stripTok c s = s := by
  show stripTokF c s.length s = s
  cases hl : s.length with
  | zero => rfl
  | succ n => exact stripTokF_succ_noClose h h2

theorem stripTok_step {c : Char} {s : Str} {start e : Nat}
    (h : firstIdx ['<', c] s = some start)
    (h2 : firstIdx ['>'] (s.drop start) = some e) :
    stripTok c s = stripTok c (s.take start ++ s.drop (start + e + 1)) := by
  show stripTokF c s.length s = _
  have hb3 : start + 2 ≤ s.length := firstIdx_bound h
  cases hl : s.length with
  | zero => omega
  | succ n =>
    rw [stripTokF_succ_step h h2]
    have hlen := strip_shrink h h2
    exact stripTokF_congr c n _ _ (by omega) le_rfl

/-- The loop condition of a strip loop: there is an occurrence of `<c` with
a `>` at or after it (Go: `strings.Contains(text, "<c")` and the inner
`strings.Index(text[start:], ">")` succeeding). -/
def hasTok (c : Char) (s : Str) : Bool :=
  match firstIdx ['<', c] s with
  | none => false
  | some start => (firstIdx ['>'] (s.drop start)).isSome

theorem stripTok_of_not_hasTok {c : Char} {s : Str}
    (h : hasTok c s = false) : stripTok c s = s := by
  cases h3 : firstIdx ['<', c] s with
  | none => exact stripTok_of_none h3
  | some start =>
    cases h4 : firstIdx ['>'] (s.drop start) with
    | none => exact stripTok_of_noClose h3 h4
    | some e =>
      have htrue : hasTok c s = true := by simp [hasTok, h3, h4]
      rw [htrue] at h
      cases h

/-- After a strip loop finishes, its own loop condition has failed. -/
theorem hasTok_stripTok (c : Char) :
    ∀ (n : Nat) (s : Str), s.length ≤ n → hasTok c (stripTok c s) = false := by
  intro n
  induction n with
  | zero =>
    intro s h
    have hs : s = [] := List.eq_nil_of_length_eq_zero (Nat.le_zero.mp h)
    subst hs
    rfl
  | succ n ih =>
    intro s h
    cases h3 : firstIdx ['<', c] s with
    | none =>
      rw [stripTok_of_none h3]
      simp [hasTok, h3]
    | some start =>
      cases h4 : firstIdx ['>'] (s.drop start) with
      | none =>
        rw [stripTok_of_noClose h3 h4]
        simp [hasTok, h3, h4]
      | some e =>
        rw [stripTok_step h3 h4]
        have hb3 : start + 2 ≤ s.length := firstIdx_bound h3
        have hlen := strip_shrink h3 h4
        exact ih _ (by omega)

/-- Occurrence form of the loop condition: the string contains a `<c` with
some `>` after it. -/
def OccTok (c : Char) (s : Str) : Prop :=
  ∃ a b d, s = a ++ '<' :: c :: b ++ '>' :: d

theorem hasTok_of_occ {c : Char} {s : Str} (h : OccTok c s) :
    hasTok c s = true := by
  obtain ⟨a, b, d, rfl⟩ := h
  have hshape : a ++ '<' :: c :: b ++ '>' :: d =
      a ++ ['<', c] ++ (b ++ '>' :: d) := by simp
  rw [hshape]
  rcases firstIdx_of_decomp ['<', c] a (b ++ '>' :: d) with ⟨i, hi, hle⟩
  have hmem : '>' ∈ (a ++ ['<', c] ++ (b ++ '>' :: d)).drop i := by
    rw [List.append_assoc, List.drop_append_of_le_length hle]
    simp
  have hsing := firstIdx_singleton_isSome hmem
  simp only [hasTok, hi]
  exact hsing

theorem occ_of_hasTok {c : Char} {s : Str} (hc : c ≠ '>')
    (h : hasTok c s = true) : OccTok c s := by
  cases h3 : firstIdx ['<', c] s with
  | none =>
    have hfalse : hasTok c s = false := by simp [hasTok, h3]
    rw [hfalse] at h
    cases h
  | some start =>
    cases h4 : firstIdx ['>'] (s.drop start) with
    | none =>
      have hfalse : hasTok c s = false := by simp [hasTok, h3, h4]
      rw [hfalse] at h
      cases h
    | some e =>
      obtain ⟨a, b, hab, hlen⟩ := firstIdx_some_decomp h3
      have hdrop : s.drop start = ['<', c] ++ b := by
        rw [hab, ← hlen, List.append_assoc, List.drop_left]
      rw [hdrop] at h4
      obtain ⟨x, y, hxy, _⟩ := firstIdx_some_decomp h4
      cases x with
      | nil => simp at hxy
      | cons u x₁ =>
        cases x₁ with
        | nil =>
          simp only [List.cons_append, List.nil_append, List.singleton_append,
            List.cons.injEq] at hxy
          exact (hc hxy.2.1).elim
        | cons v x₂ =>
          have hb : b = x₂ ++ '>' :: y := by
            simpa using congrArg (List.drop 2) hxy
          exact ⟨a, x₂, y, by rw [hab, hb]; simp⟩

theorem occ_in_middle {c : Char} {pre mid post : Str} (h : OccTok c mid) :
    OccTok c (pre ++ mid ++ post) := by
  obtain ⟨a, b, d, rfl⟩ := h
  exact ⟨pre ++ a, b, d ++ post, by simp⟩

/-- `TrimSpace` only removes characters from the two ends. -/
theorem goTrimSpace_decomp (s : Str) :
    ∃ p q, s = p ++ goTrimSpace s ++ q := by
  refine ⟨s.takeWhile goIsSpace,
    ((s.dropWhile goIsSpace).reverse.takeWhile goIsSpace).reverse, ?_⟩
  have h2 : (s.dropWhile goIsSpace).reverse =
      (s.dropWhile goIsSpace).reverse.takeWhile goIsSpace ++
        (s.dropWhile goIsSpace).reverse.dropWhile goIsSpace :=
    (List.takeWhile_append_dropWhile goIsSpace _).symm
  have h3 : s.dropWhile goIsSpace =
      goTrimSpace s ++
        ((s.dropWhile goIsSpace).reverse.takeWhile goIsSpace).reverse := by
    have h4 := congrArg List.reverse h2
    rw [List.reverse_reverse, List.reverse_append] at h4
    exact h4
  calc s = s.takeWhile goIsSpace ++ s.dropWhile goIsSpace :=
        (List.takeWhile_append_dropWhile goIsSpace s).symm
    _ = s.takeWhile goIsSpace ++ (goTrimSpace s ++
          ((s.dropWhile goIsSpace).reverse.takeWhile goIsSpace).reverse) := by
        rw [← h3]
    _ = _ := by rw [List.append_assoc]

/-- The loop condition is preserved as `false` by trimming (an occurrence
in the trimmed string would be an occurrence in the original). -/
theorem hasTok_goTrimSpace {c : Char} {s : Str} (hc : c ≠ '>')
    (h : hasTok c s = false) : hasTok c (goTrimSpace s) = false := by
  cases htr : hasTok c (goTrimSpace s) with
  | false => rfl
  | true =>
    exfalso
    have hocc : OccTok c (goTrimSpace s) := occ_of_hasTok hc htr
    obtain ⟨p, q, hpq⟩ := goTrimSpace_decomp s
    have : OccTok c s := by rw [hpq]; exact occ_in_middle hocc
    rw [hasTok_of_occ this] at h
    cases h

theorem dropWhile_dropWhile (p : Char → Bool) (l : Str) :
    (l.dropWhile p).dropWhile p = l.dropWhile p := by
  induction l with
  | nil => rfl
  | cons a t ih =>
    by_cases ha : p a
    · simp [List.dropWhile_cons, ha, ih]
    · simp [List.dropWhile_cons, ha]

theorem dropWhile_getLast? (p : Char → Bool) (l : Str)
    (h : l.dropWhile p ≠ []) : (l.dropWhile p).getLast? = l.getLast? := by
  induction l with
  | nil => rfl
  | cons a t ih =>
    by_cases ha : p a
    · rw [List.dropWhile_cons, if_pos ha] at h ⊢
      have ht : t ≠ [] := by
        intro hnil
        subst hnil
        exact h rfl
      rw [ih h]
      cases t with
      | nil => exact absurd rfl ht
      | cons b t' => rw [List.getLast?_cons_cons]
    · rw [List.dropWhile_cons, if_neg ha]

theorem dropWhile_of_head_not {p : Char → Bool} {l : Str}
    (h : ∀ a ∈ l.head?, p a = false) : l.dropWhile p = l := by
  cases l with
  | nil => rfl
  | cons a t =>
    have := h a (by simp)
    simp [List.dropWhile_cons, this]

theorem head?_dropWhile_not (p : Char → Bool) (l : Str) :
    ∀ a ∈ (l.dropWhile p).head?, p a = false := by
  induction l with
  | nil => intro a ha; cases ha
  | cons b t ih =>
    intro a ha
    by_cases hb : p b
    · rw [List.dropWhile_cons, if_pos hb] at ha
      exact ih a ha
    · rw [List.dropWhile_cons, if_neg hb] at ha
      simp only [List.head?_cons, Option.mem_def, Option.some.injEq] at ha
      subst ha
      simpa using hb

/-- `strings.TrimSpace` is idempotent. -/
theorem goTrimSpace_idem (s : Str) :
    goTrimSpace (goTrimSpace s) = goTrimSpace s := by
  set u := s.dropWhile goIsSpace with hu
  set v := u.reverse.dropWhile goIsSpace with hv
  have htrim : goTrimSpace s = v.reverse := rfl
  rw [htrim]
  have hdv : v.reverse.dropWhile goIsSpace = v.reverse := by
    refine dropWhile_of_head_not ?_
    intro a ha
    by_cases hvnil : v = []
    · rw [hvnil] at ha; simp at ha
    · rw [List.head?_reverse] at ha
      rw [hv] at ha
      rw [dropWhile_getLast? goIsSpace u.reverse (by rw [← hv]; simpa using hvnil)] at ha
      rw [List.getLast?_reverse] at ha
      exact head?_dropWhile_not goIsSpace s a ha
  show ((v.reverse.dropWhile goIsSpace).reverse.dropWhile goIsSpace).reverse = v.reverse
  rw [hdv]
  simp only [List.reverse_reverse]
  rw [hv, dropWhile_dropWhile]

/-! ### `SlackHandler.cleanMessageText` (part_000 lines 350-372 and the
identical part_009 lines 490-512) -/

/-- Go `cleanMessageText`: first remove every complete user mention
`<@...>`, then every complete channel reference `<#...|label>`, then trim
surrounding white space. -/
def cleanMessageText (text : Str) : Str :=
  goTrimSpace (stripTok '#' (stripTok '@' text))

/-- Claim C5 (counterexample): `cleanMessageText` is not idempotent. On
the input below, removing the channel reference creates a new user-mention
token which the first pass can no longer see, so a second pass removes
more text. -/
theorem cleanMessageText_not_idem :
    cleanMessageText (cleanMessageText (("<<#c>@a>").toList)) ≠
      cleanMessageText (("<<#c>@a>").toList) := by decide

/-- Claim C5 (amended): `cleanMessageText` is idempotent on every input
whose cleaned form contains no remaining complete user-mention token
(a `<@` with a later `>`); the original claim fails exactly when channel-
reference removal manufactures such a token (see
`cleanMessageText_not_idem`). -/
theorem cleanMessageText_idem (x : Str)
    (h : hasTok '@' (cleanMessageText x) = false) :
    cleanMessageText (cleanMessageText x) = cleanMessageText x := by
  have hhash : hasTok '#' (stripTok '#' (stripTok '@' x)) = false :=
    hasTok_stripTok '#' (stripTok '@' x).length _ le_rfl
  have hhash2 : hasTok '#' (cleanMessageText x) = false :=
    hasTok_goTrimSpace (by decide) hhash
  show goTrimSpace (stripTok '#' (stripTok '@' (cleanMessageText x))) = _
  rw [stripTok_of_not_hasTok h, stripTok_of_not_hasTok hhash2]
  exact goTrimSpace_idem (stripTok '#' (stripTok '@' x))

/-- Witness for `cleanMessageText_idem` at a concrete input. -/
theorem cleanMessageText_idem_witness :
    hasTok '@' (cleanMessageText (("hi <@U123> there").toList)) = false ∧
    cleanMessageText (cleanMessageText (("hi <@U123> there").toList)) =
      cleanMessageText (("hi <@U123> there").toList) :=
  ⟨by decide, cleanMessageText_idem _ (by decide)⟩

/-! ### Slack storage (part_000 lines 404-781): the `slack_messages` and
`slack_thread_embeddings` tables. SHA-256 hashing (`hashContent`) and the
database clock (`NOW()`) are abstracted as parameters `hash` and `now`; no
claim depends on their values. Lists are kept in insertion order, which is
the `created_at` order. -/

/-- A row of `slack_messages`. The generated UUID primary key is not
modeled; rows are addressed by the unique key
`(channel_id, message_timestamp)`. -/
structure SlackRow where
  channelId : Str
  threadId : Str
  messageTimestamp : Str
  userId : Str
  userName : Str
  content : Str
  contentHash : Str
  clientMsgId : Str
  isThreadRoot : Bool
  createdAt : Nat
  updatedAt : Nat
deriving DecidableEq

/-- The `SlackMessage` value passed to `StoreMessage` (timestamps and hash
are filled in by the store). -/
structure SlackMsgIn where
  channelId : Str
  threadId : Str
  messageTimestamp : Str
  userId : Str
  userName : Str
  content : Str
  clientMsgId : Str
  isThreadRoot : Bool
deriving DecidableEq

/-- A row of `slack_thread_embeddings`, unique on
`(thread_id, chunk_index)`. -/
structure ThreadEmb where
  threadId : Str
  chunkIndex : Nat
  contentHash : Str
  embedding : List ℚ
  createdAt : Nat
deriving DecidableEq

/-- The whole Slack store. -/
structure SlackState where
  msgs : List SlackRow
  embeds : List ThreadEmb
deriving DecidableEq

/-- The `ON CONFLICT (channel_id, message_timestamp)` identity. -/
def msgKeyMatch (r : SlackRow) (m : SlackMsgIn) : Bool :=
  r.channelId == m.channelId && r.messageTimestamp == m.messageTimestamp

/-- The row shape `StoreMessage` inserts, and also the `RETURNING`-based
value it hands back (input fields plus audit fields). -/
def freshRow (m : SlackMsgIn) (h0 : Str) (c u : Nat) : SlackRow :=
  ⟨m.channelId, m.threadId, m.messageTimestamp, m.userId, m.userName,
    m.content, h0, m.clientMsgId, m.isThreadRoot, c, u⟩

/-- The `DO UPDATE SET content, content_hash, updated_at` action on a
conflicting row (all other columns, `thread_id` and `created_at` included,
keep their stored values). -/
def updRow (r : SlackRow) (m : SlackMsgIn) (h0 : Str) (u : Nat) : SlackRow :=
  { r with content := m.content, contentHash := h0, updatedAt := u }

/-- Go `SlackStorage.StoreMessage`: hash the content, insert, or on
identity conflict update `content`/`content_hash`/`updated_at` in place;
`was_inserted` is `(xmax = 0)`; on an update, every
`slack_thread_embeddings` row of the delivered message's thread is
deleted. Returns the new state, the returned row and `wasInserted`. -/
def StoreMessage (hash : Str → Str) (now : Nat) (s : SlackState)
    (m : SlackMsgIn) : SlackState × SlackRow × Bool :=
  let h := hash m.content
  match s.msgs.find? (fun r => msgKeyMatch r m) with
  | some r0 =>
    (⟨s.msgs.map (fun r => if msgKeyMatch r m then updRow r m h now else r),
      s.embeds.filter fun e => !(e.threadId == m.threadId)⟩,
      freshRow m h r0.createdAt now, false)
  | none =>
    (⟨s.msgs ++ [freshRow m h now now], s.embeds⟩,
      freshRow m h now now, true)

theorem storeMessage_insert_eq (hash : Str → Str) (now : Nat)
    (s : SlackState) (m : SlackMsgIn)
    (hf : s.msgs.find? (fun r => msgKeyMatch r m) = none) :
    StoreMessage hash now s m =
      (⟨s.msgs ++ [freshRow m (hash m.content) now now], s.embeds⟩,
        freshRow m (hash m.content) now now, true) := by
  simp [StoreMessage, hf]

theorem storeMessage_update_eq (hash : Str → Str) (now : Nat)
    (s : SlackState) (m : SlackMsgIn) (r0 : SlackRow)
    (hf : s.msgs.find? (fun r => msgKeyMatch r m) = some r0) :
    StoreMessage hash now s m =
      (⟨s.msgs.map
          (fun r => if msgKeyMatch r m then updRow r m (hash m.content) now
            else r),
        s.embeds.filter fun e => !(e.threadId == m.threadId)⟩,
        freshRow m (hash m.content) r0.createdAt now, false) := by
  simp [StoreMessage, hf]

theorem msgKeyMatch_freshRow (m : SlackMsgIn) (h0 : Str) (c u : Nat) :
    msgKeyMatch (freshRow m h0 c u) m = true := by
  simp [msgKeyMatch, freshRow]

/-- Claim C3: upserting content under an already-stored identity reports
`wasInserted = false`, leaves every row under that identity holding the
newly delivered content, and deletes every thread-chunk embedding of the
delivered message's thread, so stale vectors can no longer be served. -/
theorem storeMessage_update_invalidates (hash : Str → Str) (now : Nat)
    (s : SlackState) (m : SlackMsgIn)
    (hexist : ∃ r ∈ s.msgs, msgKeyMatch r m = true ∧ r.content ≠ m.content) :
    (StoreMessage hash now s m).2.2 = false ∧
    (∀ r ∈ (StoreMessage hash now s m).1.msgs,
      msgKeyMatch r m = true → r.content = m.content) ∧
    (∀ e ∈ (StoreMessage hash now s m).1.embeds,
      ¬ e.threadId = m.threadId) := by
  obtain ⟨r, hr, hkey, _⟩ := hexist
  cases hf : s.msgs.find? (fun r => msgKeyMatch r m) with
  | none =>
    have := List.find?_eq_none.mp hf r hr
    exact absurd hkey this
  | some r0 =>
    rw [storeMessage_update_eq hash now s m r0 hf]
    refine ⟨rfl, ?_, ?_⟩
    · intro r' hr' hkey'
      rcases List.mem_map.mp hr' with ⟨r₁, hr₁, hmap⟩
      by_cases h1 : msgKeyMatch r₁ m = true
      · rw [if_pos h1] at hmap
        rw [← hmap]
        simp [updRow]
      · rw [if_neg h1] at hmap
        rw [← hmap] at hkey'
        exact absurd hkey' h1
    · intro e he
      have := (List.mem_filter.mp he).2
      simpa using this

/-- Concrete fixture: a stored message under identity (C1, 111.0). -/
def row1 : SlackRow :=
  ⟨("C1").toList, ("T1").toList, ("111.0").toList, ("U1").toList,
    ("ann").toList, ("hello").toList, ("h1").toList, [], true, 1, 1⟩

/-- Concrete fixture: one thread-chunk embedding for thread T1. -/
def emb1 : ThreadEmb := ⟨("T1").toList, 0, ("h1").toList, [1], 1⟩

/-- Concrete fixture: the store holding `row1` and `emb1`. -/
def state1 : SlackState := ⟨[row1], [emb1]⟩

/-- Concrete fixture: re-delivery of the same identity with different
content (the spec example scenario). -/
def msgIn1 : SlackMsgIn :=
  ⟨("C1").toList, ("T1").toList, ("111.0").toList, ("U1").toList,
    ("ann").toList, ("hello world, much longer now").toList, [], true⟩

/-- Witness for `storeMessage_update_invalidates` at a concrete store. -/
theorem storeMessage_update_invalidates_witness :
    (∃ r ∈ state1.msgs, msgKeyMatch r msgIn1 = true ∧
      r.content ≠ msgIn1.content) ∧
    (StoreMessage (fun _ => ("h2").toList) 2 state1 msgIn1).2.2 = false ∧
    (∀ r ∈ (StoreMessage (fun _ => ("h2").toList) 2 state1 msgIn1).1.msgs,
      msgKeyMatch r msgIn1 = true → r.content = msgIn1.content) ∧
    (∀ e ∈ (StoreMessage (fun _ => ("h2").toList) 2 state1 msgIn1).1.embeds,
      ¬ e.threadId = msgIn1.threadId) :=
  ⟨⟨row1, by simp [state1], by decide, by decide⟩,
    storeMessage_update_invalidates _ 2 state1 msgIn1
      ⟨row1, by simp [state1], by decide, by decide⟩⟩

/-- Claim C4: upserting the same message twice from a state holding no row
under its identity: the first call inserts (`wasInserted = true`); the
second call reports `wasInserted = false`, leaves the row count unchanged
(no duplicate row), leaves exactly one row under the identity, and touches
that row's `updated_at` to the second call's clock. -/
theorem storeMessage_dedup (hash : Str → Str) (t₁ t₂ : Nat) (s : SlackState)
    (m : SlackMsgIn) (hnone : ∀ r ∈ s.msgs, msgKeyMatch r m = false) :
    (StoreMessage hash t₁ s m).2.2 = true ∧
    (StoreMessage hash t₂ (StoreMessage hash t₁ s m).1 m).2.2 = false ∧
    ((StoreMessage hash t₂ (StoreMessage hash t₁ s m).1 m).1.msgs.filter
      (fun r => msgKeyMatch r m)).length = 1 ∧
    (StoreMessage hash t₂ (StoreMessage hash t₁ s m).1 m).1.msgs.length =
      (StoreMessage hash t₁ s m).1.msgs.length ∧
    ∀ r ∈ (StoreMessage hash t₂ (StoreMessage hash t₁ s m).1 m).1.msgs,
      msgKeyMatch r m = true → r.updatedAt = t₂ := by
  have hf₁ : s.msgs.find? (fun r => msgKeyMatch r m) = none :=
    List.find?_eq_none.mpr fun r hr => by simp [hnone r hr]
  have he₁ := storeMessage_insert_eq hash t₁ s m hf₁
  have hf₂ : (StoreMessage hash t₁ s m).1.msgs.find?
      (fun r => msgKeyMatch r m) =
      some (freshRow m (hash m.content) t₁ t₁) := by
    rw [he₁, List.find?_append, hf₁]
    simp [List.find?_cons, msgKeyMatch_freshRow]
  have he₂ := storeMessage_update_eq hash t₂ (StoreMessage hash t₁ s m).1 m
    (freshRow m (hash m.content) t₁ t₁) hf₂
  have hmsgs₁ : (StoreMessage hash t₁ s m).1.msgs =
      s.msgs ++ [freshRow m (hash m.content) t₁ t₁] := by rw [he₁]
  have hupd : updRow (freshRow m (hash m.content) t₁ t₁) m
      (hash m.content) t₂ = freshRow m (hash m.content) t₁ t₂ := by
    simp [updRow, freshRow]
  have hmap : (StoreMessage hash t₂ (StoreMessage hash t₁ s m).1 m).1.msgs =
      s.msgs ++ [freshRow m (hash m.content) t₁ t₂] := by
    rw [he₂]
    show ((StoreMessage hash t₁ s m).1.msgs.map _) = _
    rw [hmsgs₁, List.map_append]
    congr 1
    · refine (List.map_congr_left ?_).trans (List.map_id _)
      intro r hr
      simp [hnone r hr]
    · simp [msgKeyMatch_freshRow, hupd]
  refine ⟨by rw [he₁], by rw [he₂], ?_, ?_, ?_⟩
  · rw [hmap, List.filter_append]
    have h1 : s.msgs.filter (fun r => msgKeyMatch r m) = [] :=
      List.filter_eq_nil_iff.mpr fun r hr => by simp [hnone r hr]
    rw [h1]
    simp [msgKeyMatch_freshRow]
  · rw [hmap, hmsgs₁]
    simp
  · intro r hr hkey
    rw [hmap] at hr
    rcases List.mem_append.mp hr with hr | hr
    · rw [hnone r hr] at hkey
      cases hkey
    · rcases List.mem_singleton.mp hr with rfl
      rfl

/-- Concrete fixture: a fresh message under an unoccupied identity. -/
def msgIn2 : SlackMsgIn :=
  ⟨("C2").toList, ("T2").toList, ("222.0").toList, ("U2").toList,
    ("bob").toList, ("a valid document with content").toList, [], true⟩

/-- Witness for `storeMessage_dedup` at a concrete store. -/
theorem storeMessage_dedup_witness :
    (∀ r ∈ state1.msgs, msgKeyMatch r msgIn2 = false) ∧
    (StoreMessage (fun _ => ("h3").toList) 3 state1 msgIn2).2.2 = true ∧
    (StoreMessage (fun _ => ("h3").toList) 4
      (StoreMessage (fun _ => ("h3").toList) 3 state1 msgIn2).1
        msgIn2).2.2 = false :=
  ⟨by decide, (storeMessage_dedup _ 3 4 state1 msgIn2 (by decide)).1,
    (storeMessage_dedup _ 3 4 state1 msgIn2 (by decide)).2.1⟩

/-! ### RAG service (the `services` revision embedded at
`src/internal/services/embedding_test.go` lines 198-441): similarity
filtering over Slack messages. `float64` constants are carried over `ℚ`
(`0.9`, `0.05`, `0.75`, `0.6`); every statement below is independent of
rounding at a comparison boundary. -/

/-- Go `strings.Contains(s, pat)`. -/
def goContains (s pat : Str) : Bool := (firstIdx pat s).isSome

set_option linter.unusedVariables false in
/-- Go `calculateSimilarity` (embedding_test.go lines 361-367): the
similarity "estimate" compared against the relevance thresholds. It is
`0.9 - float64(index)*0.05`, a function of the candidate's rank alone: the
query embedding and the message are accepted and ignored. -/
def calculateSimilarity (queryEmbedding : List ℚ) (msg : SlackRow)
    (index : Nat) : ℚ :=
  9 / 10 - (index : ℚ) * (5 / 100)

/-- The bot-acknowledgement patterns of the service-level
`isQualityContent`. -/
def botPatterns : List Str :=
  [("got it").toList, ("i've processed").toList,
    ("stored the messages").toList, (":+1:").toList, ("üëç").toList,
    ("‚úÖ").toList, ("done").toList, ("processed and stored").toList]

/-- The test/placeholder patterns of the service-level
`isQualityContent`. -/
def svcTestPatterns : List Str :=
  [("test").toList, ("testing").toList, ("some other content").toList,
    ("this is my other message").toList, ("should also go in").toList,
    ("hello world").toList, ("sample").toList, ("example").toList]

/-- Go `isQualityContent` (services revision, embedding_test.go lines
318-359): lower-cased trimmed content must avoid the bot and test pattern
sets, be at least 20 bytes, and contain at least 4 words. -/
def isQualityContent (content : Str) : Bool :=
  let c := goToLower (goTrimSpace content)
  if botPatterns.any (fun p => goContains c p) then false
  else if svcTestPatterns.any (fun p => goContains c p) then false
  else if goLen c < 20 then false
  else if (goFields c).length < 4 then false
  else true

/-- The primary relevance threshold `0.75`. -/
def primaryThreshold : ℚ := 75 / 100

/-- The relaxed fallback threshold `0.6`. -/
def relaxedThreshold : ℚ := 6 / 10

/-- One filtering pass of `RAGService.Query`: keep, in order, the
candidates whose `calculateSimilarity` exceeds the threshold and whose
content passes `isQualityContent`. -/
def relevantAtThreshold (queryEmbedding : List ℚ) (threshold : ℚ)
    (messages : List SlackRow) : List SlackRow :=
  (messages.enum.filter fun p =>
    decide (threshold < calculateSimilarity queryEmbedding p.2 p.1) &&
      isQualityContent p.2.content).map Prod.snd

/-- The two-tier filtering of `RAGService.Query` (embedding_test.go lines
256-294): filter at `0.75`; if nothing passes, refilter the same
candidates at `0.6` with the same quality filter. -/
def relevantMessages (queryEmbedding : List ℚ)
    (messages : List SlackRow) : List SlackRow :=
  let primary := relevantAtThreshold queryEmbedding primaryThreshold messages
  if primary.isEmpty then
    relevantAtThreshold queryEmbedding relaxedThreshold messages
  else primary

/-- The `QueryResult` returned by `RAGService.Query`. -/
structure QueryResult where
  answer : Str
  sources : List SlackRow
  query : Str
deriving DecidableEq

/-- The fixed sentinel answer for queries with no relevant grounding. -/
def noRelevantInfoAnswer : Str :=
  ("I couldn't find any relevant information to answer your question.").toList

/-- The post-retrieval phase of `RAGService.Query` (embedding_test.go lines
256-316): two-tier filtering; if nothing remains, the sentinel result is
returned successfully without consulting the answer generator; otherwise
one generator call is made. `gen` abstracts `generateAnswer` (the OpenAI
chat call), which can fail; the `Bool` in the result records whether it
was invoked. -/
def ragQueryPhase (gen : List SlackRow → Except Str Str) (query : Str)
    (queryEmbedding : List ℚ) (messages : List SlackRow) :
    Except Str (QueryResult × Bool) :=
  let relevant := relevantMessages queryEmbedding messages
  if relevant.isEmpty then
    .ok (⟨noRelevantInfoAnswer, [], query⟩, false)
  else
    match gen relevant with
    | .error e => .error e
    | .ok a => .ok (⟨a, relevant, query⟩, true)

/-- The pgvector dot product over the model's rationals. -/
def dotProduct (u v : List ℚ) : ℚ := ((u.zip v).map fun p => p.1 * p.2).sum

/-- Squared Euclidean norm. -/
def normSq (u : List ℚ) : ℚ := dotProduct u u

/-- The value `1 - (u <=> v)` computed by the similarity-search SQL (`<=>`
is pgvector cosine distance), specialized to unit-norm vectors, where it
equals the dot product — no square roots are needed. -/
def cosineSimilarityUnit (u v : List ℚ) : ℚ := dotProduct u v

/-- Concrete fixture: a candidate message for the similarity claims. -/
def msgA : SlackRow :=
  ⟨("C9").toList, ("T9").toList, ("900.0").toList, ("U9").toList,
    ("amy").toList, ("the quarterly deployment runbook is stored here").toList,
    ("h9").toList, [], true, 1, 1⟩

/-- Claim C1 (counterexample): with query embedding `[1, 0]` and stored
candidate embedding `[0, 1]` (both unit norm), the true cosine similarity
`1 - cosine_distance` is `0`, but the value `RAGService.Query` compares
against its thresholds for the rank-0 candidate is `0.9`: the filter value
is not `1 -` the cosine distance between the query and the stored
embedding. -/
theorem calculateSimilarity_not_cosine :
    normSq [(1 : ℚ), 0] = 1 ∧ normSq [(0 : ℚ), 1] = 1 ∧
    cosineSimilarityUnit [(1 : ℚ), 0] [(0 : ℚ), 1] = 0 ∧
    calculateSimilarity [(1 : ℚ), 0] msgA 0 = 9 / 10 ∧
    calculateSimilarity [(1 : ℚ), 0] msgA 0 ≠
      cosineSimilarityUnit [(1 : ℚ), 0] [(0 : ℚ), 1] := by
  refine ⟨?_, ?_, ?_, ?_, ?_⟩ <;>
    norm_num [normSq, dotProduct, cosineSimilarityUnit, calculateSimilarity]

/-- Claim C1 (amended): the similarity value compared against the
relevance thresholds is the rank-based estimate `0.9 - 0.05 * index`; it
depends only on the candidate's position in the (cosine-distance-ordered)
result list, not on the query embedding or the candidate's stored
embedding. -/
theorem calculateSimilarity_rank_only (queryEmbedding : List ℚ)
    (msg : SlackRow) (index : Nat) :
    calculateSimilarity queryEmbedding msg index =
      9 / 10 - (index : ℚ) * (5 / 100) ∧
    ∀ (queryEmbedding' : List ℚ) (msg' : SlackRow),
      calculateSimilarity queryEmbedding msg index =
        calculateSimilarity queryEmbedding' msg' index :=
  ⟨rfl, fun _ _ => rfl⟩

/-- Claim C6: whenever no candidate passes the primary threshold, the
returned relevant set is exactly the candidate list refiltered at the
relaxed threshold with the same content-quality filter. -/
theorem query_relaxed_fallback (queryEmbedding : List ℚ)
    (messages : List SlackRow)
    (h : relevantAtThreshold queryEmbedding primaryThreshold messages = []) :
    relevantMessages queryEmbedding messages =
      relevantAtThreshold queryEmbedding relaxedThreshold messages := by
  simp [relevantMessages, h]

theorem snd_mem_of_mem_enumFrom {α : Type} :
    ∀ (l : List α) (n : Nat) (p : Nat × α), p ∈ l.enumFrom n → p.2 ∈ l := by
  intro l
  induction l with
  | nil => intro n p hp; cases hp
  | cons a t ih =>
    intro n p hp
    rw [List.enumFrom_cons] at hp
    rcases List.mem_cons.mp hp with hp | hp
    · subst hp; simp
    · exact List.mem_cons_of_mem a (ih (n + 1) p hp)

/-- A filtering pass keeps nothing when every candidate fails the quality
filter, whatever the threshold comparison says. -/
theorem relevantAtThreshold_nil_of_lowq (queryEmbedding : List ℚ)
    (threshold : ℚ) (messages : List SlackRow)
    (h : ∀ m ∈ messages, isQualityContent m.content = false) :
    relevantAtThreshold queryEmbedding threshold messages = [] := by
  unfold relevantAtThreshold
  rw [List.filter_eq_nil_iff.mpr, List.map_nil]
  intro p hp
  have : isQualityContent p.2.content = false :=
    h p.2 (snd_mem_of_mem_enumFrom messages 0 p hp)
  simp [this]

/-- The two-tier filter keeps nothing when every candidate fails the
quality filter. -/
theorem relevantMessages_nil_of_lowq (queryEmbedding : List ℚ)
    (messages : List SlackRow)
    (h : ∀ m ∈ messages, isQualityContent m.content = false) :
    relevantMessages queryEmbedding messages = [] := by
  unfold relevantMessages
  rw [relevantAtThreshold_nil_of_lowq _ _ _ h,
    relevantAtThreshold_nil_of_lowq _ _ _ h]
  rfl

/-- Concrete fixture: a candidate whose content fails the quality filter
(it contains the pattern "test"). -/
def msgB : SlackRow :=
  ⟨("C9").toList, ("T9").toList, ("901.0").toList, ("U9").toList,
    ("amy").toList, ("this is a test message for the checker").toList,
    ("h9").toList, [], false, 1, 1⟩

/-- Witness for `query_relaxed_fallback` at a concrete input. -/
theorem query_relaxed_fallback_witness :
    relevantAtThreshold [(1 : ℚ), 0] primaryThreshold [msgB] = [] ∧
    relevantMessages [(1 : ℚ), 0] [msgB] =
      relevantAtThreshold [(1 : ℚ), 0] relaxedThreshold [msgB] := by
  have hq : ∀ m ∈ [msgB], isQualityContent m.content = false := by
    intro m hm
    rcases List.mem_singleton.mp hm with rfl
    decide
  exact ⟨relevantAtThreshold_nil_of_lowq _ _ _ hq,
    query_relaxed_fallback [(1 : ℚ), 0] [msgB]
      (relevantAtThreshold_nil_of_lowq _ _ _ hq)⟩

/-- Claim C7: when the two-tier filter leaves nothing, `Query` returns the
fixed sentinel answer with an empty source list as a successful result,
and the generator is not invoked (the `false` flag; the result is also the
same for every generator). -/
theorem query_empty_sentinel (gen : List SlackRow → Except Str Str)
    (query : Str) (queryEmbedding : List ℚ) (messages : List SlackRow)
    (h : relevantMessages queryEmbedding messages = []) :
    ragQueryPhase gen query queryEmbedding messages =
      .ok (⟨noRelevantInfoAnswer, [], query⟩, false) := by
  simp [ragQueryPhase, h]

/-- Witness for `query_empty_sentinel` at a concrete input. -/
theorem query_empty_sentinel_witness :
    relevantMessages [(1 : ℚ), 0] [msgB] = [] ∧
    ragQueryPhase (fun _ => .error ("outage").toList) ("where?").toList
      [(1 : ℚ), 0] [msgB] =
      .ok (⟨noRelevantInfoAnswer, [], ("where?").toList⟩, false) := by
  have hq : ∀ m ∈ [msgB], isQualityContent m.content = false := by
    intro m hm
    rcases List.mem_singleton.mp hm with rfl
    decide
  exact ⟨relevantMessages_nil_of_lowq _ _ hq,
    query_empty_sentinel _ _ [(1 : ℚ), 0] [msgB]
      (relevantMessages_nil_of_lowq _ _ hq)⟩

/-! ### Document embedding backlog processor
(`internal/jobs/embeddings.go` with `internal/storage/postgres.go`). -/

/-- A row of the `documents` table (the fields the processor touches). -/
structure Document where
  id : Str
  content : Str
  embedding : Option (List ℚ)
  createdAt : Nat
deriving DecidableEq

/-- Go `GetDocumentsWithoutEmbeddings`: documents with `embedding IS
NULL`, `ORDER BY created_at ASC` (the list is kept in creation order),
`LIMIT $1`. -/
def GetDocumentsWithoutEmbeddings (docs : List Document) (limit : Nat) :
    List Document :=
  (docs.filter fun d => d.embedding.isNone).take limit

/-- Go `UpdateEmbedding`: `SET embedding = $1 WHERE id = $2` (the
`updated_at` touch is not modeled; no claim concerns it). -/
def UpdateEmbedding (docs : List Document) (documentID : Str)
    (emb : List ℚ) : List Document :=
  docs.map fun d =>
    if d.id == documentID then { d with embedding := some emb } else d

/-- What `processDocument` decides to do with a document's content. -/
inductive EmbedDecision where
  | placeholderMark
  | callProvider (text : Str)
deriving DecidableEq

/-- The quality gate of `processDocument` (embeddings.go lines 108-146):
trimmed-empty content, or trimmed content shorter than 10 bytes, is
marked with the placeholder embedding `[0.0]`; anything else is sent to
the embedding provider (as the trimmed content). -/
def docQualityGate (content : Str) : EmbedDecision :=
  let c := goTrimSpace content
  if c = [] then .placeholderMark
  else if goLen c < 10 then .placeholderMark
  else .callProvider c

/-- The single-zero placeholder embedding written for rejected content. -/
def placeholderEmbedding : List ℚ := [0]

/-- Go `processDocument`, with the provider abstracted as a total `gen`
(the claims below concern the gate, not provider failure). -/
def processDocument (gen : Str → List ℚ) (docs : List Document)
    (doc : Document) : List Document :=
  match docQualityGate doc.content with
  | .placeholderMark => UpdateEmbedding docs doc.id placeholderEmbedding
  | .callProvider t => UpdateEmbedding docs doc.id (gen t)

/-- After an embedding (placeholder or real) is attached under an id, no
document with that id is ever returned by the missing-embeddings fetch. -/
theorem update_not_missing (docs : List Document) (documentID : Str)
    (emb : List ℚ) (limit : Nat) :
    ∀ d ∈ GetDocumentsWithoutEmbeddings
        (UpdateEmbedding docs documentID emb) limit,
      d.id ≠ documentID := by
  intro d hd
  have hd' := List.mem_of_mem_take hd
  obtain ⟨hmem, hmiss⟩ := List.mem_filter.mp hd'
  rcases List.mem_map.mp hmem with ⟨d₀, _, hmap⟩
  by_cases h0 : d₀.id == documentID
  · rw [if_pos h0] at hmap
    rw [← hmap] at hmiss
    simp at hmiss
  · rw [if_neg h0] at hmap
    subst hmap
    simpa using h0

/-- Claim C8: trimmed content of exactly 10 bytes passes the quality gate
(the provider is called on it); trimmed content of 9 bytes is rejected,
receives the placeholder embedding `[0.0]` instead, and its document is
no longer returned by `GetDocumentsWithoutEmbeddings`. -/
theorem docQualityGate_boundary (gen : Str → List ℚ)
    (docs : List Document) (doc : Document) (limit : Nat) :
    (goLen (goTrimSpace doc.content) = 10 →
      docQualityGate doc.content = .callProvider (goTrimSpace doc.content) ∧
      processDocument gen docs doc =
        UpdateEmbedding docs doc.id (gen (goTrimSpace doc.content))) ∧
    (goLen (goTrimSpace doc.content) = 9 →
      docQualityGate doc.content = .placeholderMark ∧
      processDocument gen docs doc =
        UpdateEmbedding docs doc.id placeholderEmbedding ∧
      ∀ d ∈ GetDocumentsWithoutEmbeddings (processDocument gen docs doc)
          limit, d.id ≠ doc.id) := by
  constructor
  · intro h10
    have hne : goTrimSpace doc.content ≠ [] := by
      intro hnil
      rw [hnil] at h10
      simp [goLen] at h10
    have hgate : docQualityGate doc.content =
        .callProvider (goTrimSpace doc.content) := by
      unfold docQualityGate
      rw [if_neg hne, if_neg (by omega)]
    exact ⟨hgate, by rw [processDocument, hgate]⟩
  · intro h9
    have hgate : docQualityGate doc.content = .placeholderMark := by
      unfold docQualityGate
      by_cases hnil : goTrimSpace doc.content = []
      · rw [if_pos hnil]
      · rw [if_neg hnil, if_pos (by omega)]
    refine ⟨hgate, by rw [processDocument, hgate], ?_⟩
    rw [processDocument, hgate]
    exact update_not_missing docs doc.id placeholderEmbedding limit

/-- Concrete fixture: a document whose trimmed content is exactly 10
bytes. -/
def docTen : Document := ⟨("d1").toList, (" exactly-10 ").toList, none, 1⟩

/-- Concrete fixture: a document whose trimmed content is 9 bytes. -/
def docNine : Document := ⟨("d2").toList, (" just9nine ").toList, none, 2⟩

/-- Witness for `docQualityGate_boundary` at concrete documents. -/
theorem docQualityGate_boundary_witness :
    goLen (goTrimSpace docTen.content) = 10 ∧
    docQualityGate docTen.content =
      .callProvider (goTrimSpace docTen.content) ∧
    goLen (goTrimSpace docNine.content) = 9 ∧
    docQualityGate docNine.content = .placeholderMark ∧
    ∀ d ∈ GetDocumentsWithoutEmbeddings
        (processDocument (fun _ => [1]) [docTen, docNine] docNine) 1000,
      d.id ≠ docNine.id :=
  ⟨by decide,
    ((docQualityGate_boundary (fun _ => [1]) [docTen, docNine] docTen
      1000).1 (by decide)).1,
    by decide,
    ((docQualityGate_boundary (fun _ => [1]) [docTen, docNine] docNine
      1000).2 (by decide)).1,
    ((docQualityGate_boundary (fun _ => [1]) [docTen, docNine] docNine
      1000).2 (by decide)).2.2⟩

/-! ### Slack thread embedding backlog processor (part_002). The provider
(`gen`), SHA-256 (`hash`), the Go time formatter
`time.Unix(n,0).Format(...)` (`fmtUnix`) and the clock (`now`) are
abstract parameters: the claim settled below never reaches a code path
that consults any of them. -/

/-- Byte-wise lexicographic string order (Postgres
`ORDER BY message_timestamp ASC`; collation is approximated by byte
order, which agrees on the ASCII timestamps this table stores). -/
def strLe : Str → Str → Bool
  | [], _ => true
  | _ :: _, [] => false
  | a :: as, b :: bs =>
    if a.toNat < b.toNat then true
    else if b.toNat < a.toNat then false
    else strLe as bs

/-- Insertion into a timestamp-sorted row list. -/
def insertByTs (r : SlackRow) : List SlackRow → List SlackRow
  | [] => [r]
  | x :: xs =>
    if strLe r.messageTimestamp x.messageTimestamp then r :: x :: xs
    else x :: insertByTs r xs

/-- Sort rows by `message_timestamp` ascending. -/
def sortByTs (l : List SlackRow) : List SlackRow := l.foldr insertByTs []

/-- Go `GetMessagesInThread`: the thread's messages ordered by
timestamp. -/
def GetMessagesInThread (s : SlackState) (threadID : Str) : List SlackRow :=
  sortByTs (s.msgs.filter fun r => r.threadId == threadID)

/-- First-occurrence deduplication (SQL `DISTINCT` keeping the
`MIN(created_at)` order; the message list is kept in creation order). -/
def dedupFirstAux (seen : List Str) : List Str → List Str
  | [] => []
  | x :: xs =>
    if seen.contains x then dedupFirstAux seen xs
    else x :: dedupFirstAux (x :: seen) xs

/-- Go `GetThreadsWithoutEmbeddings`: distinct thread ids of stored
messages having no `slack_thread_embeddings` row, earliest first, bounded.
(The SQL as written mixes `DISTINCT` with an ungrouped aggregate `ORDER BY
MIN(created_at)`; it is modeled by its evident intent. Under this most
charitable reading the convergence claim already fails, see
`slack_backlog_stuck`.) -/
def GetThreadsWithoutEmbeddings (s : SlackState) (limit : Nat) : List Str :=
  ((dedupFirstAux [] (s.msgs.map fun r => r.threadId)).filter
    fun tid => !(s.embeds.any fun e => e.threadId == tid)).take limit

/-- Decimal digit run to a number (for `strconv.ParseInt`). -/
def digitsVal (s : Str) : Option Nat :=
  if s = [] then none
  else if s.all (fun c => c.isDigit) then
    some (s.foldl (fun acc c => acc * 10 + (c.toNat - 48)) 0)
  else none

/-- The largest int64. -/
def int64Max : Nat := 9223372036854775807

/-- Go `strconv.ParseInt(s, 10, 64)` as an `Option` (Go reports overflow
and syntax problems as errors). -/
def goParseInt64 (s : Str) : Option Int :=
  match s with
  | '+' :: rest => (digitsVal rest).bind fun n =>
      if n ≤ int64Max then some (n : Int) else none
  | '-' :: rest => (digitsVal rest).bind fun n =>
      if n ≤ int64Max + 1 then some (-(n : Int)) else none
  | _ => (digitsVal s).bind fun n =>
      if n ≤ int64Max then some (n : Int) else none

/-- Go `formatTimestamp`: parse the part of the Slack timestamp before the
first dot; on success format it as a calendar date (`fmtUnix` abstracts
`time.Unix(n, 0).Format("January 2, 2006, 3:04PM")`), otherwise fall back
to the raw timestamp. (`strings.Split` always returns at least one part,
so the `len(parts) == 0` fallback is unreachable.) -/
def formatTimestamp (fmtUnix : Int → Str) (ts : Str) : Str :=
  let head := ts.takeWhile fun c => !(c == '.')
  match goParseInt64 head with
  | none => ts
  | some n => fmtUnix n

/-- Go `buildThreadContent`: one `[timestamp] UserName: Content` line per
message, joined with newlines. -/
def buildThreadContent (fmtUnix : Int → Str) (messages : List SlackRow) :
    Str :=
  goJoin ['\n'] (messages.map fun m =>
    ("[").toList ++ formatTimestamp fmtUnix m.messageTimestamp ++
      ("] ").toList ++ m.userName ++ (": ").toList ++ m.content)

/-- The test/placeholder patterns of the thread processor's quality
gate. -/
def threadTestPatterns : List Str :=
  [("hello world").toList, ("sample").toList, ("example").toList,
    ("placeholder").toList, ("lorem ipsum").toList,
    ("dummy text").toList, ("test message").toList]

/-- Go `EmbeddingProcessor.isQualityContent` (part_002 lines 210-242):
nonblank, free of the test patterns (lower-cased containment), at least 5
bytes, at least one word. -/
def isQualityThreadContent (content : Str) : Bool :=
  if goTrimSpace content = [] then false
  else if threadTestPatterns.any
      (fun p => goContains (goToLower content) p) then false
  else if goLen content < 5 then false
  else if (goFields content).length < 1 then false
  else true

/-- The `ON CONFLICT (thread_id, chunk_index)` identity of
`slack_thread_embeddings`. -/
def embKeyMatch (e : ThreadEmb) (tid : Str) (idx : Nat) : Bool :=
  e.threadId == tid && e.chunkIndex == idx

/-- The `DO UPDATE SET content_hash, embedding, created_at` action of the
thread-embedding upsert. -/
def updEmb (e : ThreadEmb) (h0 : Str) (v : List ℚ) (now : Nat) : ThreadEmb :=
  { e with contentHash := h0, embedding := v, createdAt := now }

/-- Go `StoreThreadEmbedding`: upsert a chunk embedding under
`(thread_id, chunk_index)`. -/
def StoreThreadEmbedding (now : Nat) (s : SlackState) (threadID : Str)
    (chunkIndex : Nat) (contentHash : Str) (embedding : List ℚ) :
    SlackState :=
  if s.embeds.any (fun e => embKeyMatch e threadID chunkIndex) then
    ⟨s.msgs, s.embeds.map fun e =>
      if embKeyMatch e threadID chunkIndex then
        updEmb e contentHash embedding now
      else e⟩
  else
    ⟨s.msgs,
      s.embeds ++ [⟨threadID, chunkIndex, contentHash, embedding, now⟩]⟩

/-- Go `EmbeddingProcessor.processThread` (part_002 lines 97-145): fetch
the thread's messages; nothing stored for an empty thread; build the
thread text; a thread failing the quality gate is skipped WITHOUT writing
any placeholder; otherwise each chunk is hashed, embedded and upserted. -/
def processThread (gen : Str → List ℚ) (hash : Str → Str)
    (fmtUnix : Int → Str) (now : Nat) (s : SlackState) (threadID : Str) :
    SlackState :=
  let messages := GetMessagesInThread s threadID
  if messages = [] then s
  else
    let threadContent := buildThreadContent fmtUnix messages
    if !isQualityThreadContent threadContent then s
    else
      (chunkContent threadContent).enum.foldl
        (fun st p =>
          StoreThreadEmbedding now st threadID p.1 (hash p.2) (gen p.2)) s

/-- Go `EmbeddingProcessor.processBatch`: one tick fetches up to
`batchSize = 10` threads lacking embeddings and processes each. -/
def processBatchSlack (gen : Str → List ℚ) (hash : Str → Str)
    (fmtUnix : Int → Str) (now : Nat) (s : SlackState) : SlackState :=
  (GetThreadsWithoutEmbeddings s 10).foldl
    (fun st tid => processThread gen hash fmtUnix now st tid) s

/-- The `GetStats` observable: how many threads still lack embeddings
(fetch limit 1000 as in the source). -/
def slackMissingCount (s : SlackState) : Nat :=
  (GetThreadsWithoutEmbeddings s 1000).length

/-- Concrete fixture: one stored message whose thread text is low-quality
(it contains the test pattern "sample"); its non-numeric timestamp keeps
the abstract calendar formatter out of the computation. -/
def stuckRow : SlackRow :=
  ⟨("C1").toList, ("T1").toList, ("xyz").toList, ("U1").toList,
    ("amy").toList, ("sample data here").toList, ("h1").toList, [],
    true, 1, 1⟩

/-- Concrete fixture: the store holding only `stuckRow`, no embeddings. -/
def stuckState : SlackState := ⟨[stuckRow], []⟩

/-- Claim C2 (the code evaluated at the failing input): the thread
processor's tick leaves `stuckState` completely unchanged — the
low-quality thread is skipped without a placeholder — for every embedding
provider, hash function, time formatter and clock; the thread therefore
stays in the missing-embeddings fetch on every later tick and the missing
count remains 1 forever instead of converging to 0. (The document
processor, by contrast, absorbs its rejects with placeholders:
`docQualityGate_boundary`.) -/
theorem slack_backlog_stuck (gen : Str → List ℚ) (hash : Str → Str)
    (fmtUnix : Int → Str) (now : Nat) :
    processBatchSlack gen hash fmtUnix now stuckState = stuckState ∧
    slackMissingCount stuckState = 1 :=
  ⟨rfl, rfl⟩
